import Mathlib

/-!
Verification of the go-patcher library: a system that records positional
edits (insertions, deletions, rewrites) against an immutable input buffer
and applies them all at once, validating bounds and detecting conflicts.

The embedding models Go byte slices and strings as `List Nat`, Go `int`
as `Int`, and the in-place `sort.SliceStable` (stable sort by ascending
offset) as a stable insertion sort by the same key.  A Go function
returning `([]byte, error)` is modelled as returning the updated patcher
state (the sort mutates the receiver's slice), the output bytes (the Go
`nil` slice returned on error is modelled as `[]`) and an optional error.
-/

namespace GoPatcher

/-- An edit record (Go struct `patch`): `offset` is the byte offset in the
original input, `length` the number of original bytes consumed (replaced or
deleted), `data` the replacement bytes. -/
structure patch where
  offset : Int
  length : Int
  data : List Nat
deriving DecidableEq

/-- Go struct `Patcher`: the list of recorded edits, in recording order. -/
structure Patcher where
  patches : List patch
deriving DecidableEq

/-- The validation errors produced by `PatchBytes`, carrying the offending
record(s) exactly as the Go `fmt.Errorf` messages do. -/
inductive PatchError where
  | negativeOffset (p : patch)
  | negativeLength (p : patch)
  | outOfRange (p : patch)
  | conflict (p q : patch)
deriving DecidableEq

/-- Go `Patcher.Empty`: true if the patcher does not contain any edits. -/
def Patcher.Empty (p : Patcher) : Bool :=
  p.patches.length == 0

/-- Go `Patcher.Reset`: removes all edits from the patcher. -/
def Patcher.Reset (_ : Patcher) : Patcher :=
  ⟨[]⟩

/-- Go `Patcher.Delete`: records removal of `length` bytes at `offset`;
records nothing when `length == 0`. -/
def Patcher.Delete (p : Patcher) (offset length : Int) : Patcher :=
  if length ≠ 0 then ⟨p.patches ++ [⟨offset, length, []⟩]⟩ else p

/-- Go `Patcher.InsertBytes`: records insertion of `data` at `offset`;
records nothing when `data` is empty. -/
def Patcher.InsertBytes (p : Patcher) (offset : Int) (data : List Nat) : Patcher :=
  if data.length ≠ 0 then ⟨p.patches ++ [⟨offset, 0, data⟩]⟩ else p

/-- Go `Patcher.InsertString`: delegates to `InsertBytes` (strings are
modelled as byte lists). -/
def Patcher.InsertString (p : Patcher) (offset : Int) (data : List Nat) : Patcher :=
  p.InsertBytes offset data

/-- Go `Patcher.RewriteBytes`: records replacement of `length` bytes at
`offset` by `data`; records nothing when both `length == 0` and `data` is
empty. -/
def Patcher.RewriteBytes (p : Patcher) (offset length : Int) (data : List Nat) : Patcher :=
  if length ≠ 0 ∨ data.length ≠ 0 then ⟨p.patches ++ [⟨offset, length, data⟩]⟩ else p

/-- Go `Patcher.RewriteString`: delegates to `RewriteBytes`. -/
def Patcher.RewriteString (p : Patcher) (offset length : Int) (data : List Nat) : Patcher :=
  p.RewriteBytes offset length data

/-- The sort key used by `PatchBytes`: ascending `offset`. -/
def patchLE (a b : patch) : Prop :=
  a.offset ≤ b.offset

instance : DecidableRel patchLE :=
  fun a b => inferInstanceAs (Decidable (a.offset ≤ b.offset))

instance : IsTotal patch patchLE :=
  ⟨fun a b => Int.le_total a.offset b.offset⟩

instance : IsTrans patch patchLE :=
  ⟨fun _ _ _ hab hbc => le_trans hab hbc⟩

/-- `sort.SliceStable` on the patch slice with `less i j ↔ offset i < offset j`:
the stable sort by ascending offset, modelled as stable insertion sort
(records with equal offset keep their recording order). -/
def sortPatches (l : List patch) : List patch :=
  l.insertionSort patchLE

/-- The validation loop of `PatchBytes` over the sorted records, for an
input of length `n`: checks negative offset, negative length, out of range
and conflict with the next record, short-circuiting on the first failure. -/
def checkPatches (n : Int) : List patch → Option PatchError
  | [] => none
  | p :: rest =>
    if p.offset < 0 then some (.negativeOffset p)
    else if p.length < 0 then some (.negativeLength p)
    else if n < p.offset + p.length then some (.outOfRange p)
    else
      match rest with
      | [] => none
      | q :: _ =>
        if q.offset < p.offset + p.length then some (.conflict p q)
        else checkPatches n rest

/-- Go slice expression `input[a:b]` (valid when `0 ≤ a ≤ b ≤ len input`). -/
def goSlice (input : List Nat) (a b : Int) : List Nat :=
  (input.take b.toNat).drop a.toNat

/-- The output-assembly loop of `PatchBytes`: walks the sorted records with
a cursor, copying `input[cursor:offset]`, then the record's data, finally
the tail `input[cursor:]`. -/
def applyPatches (input : List Nat) : Int → List patch → List Nat
  | cursor, [] => input.drop cursor.toNat
  | cursor, p :: rest =>
    goSlice input cursor p.offset ++ p.data ++ applyPatches input (p.offset + p.length) rest

/-- Go `Patcher.PatchBytes`: stably sorts the recorded edits in place by
ascending offset, validates them against `input`, and on success assembles
the output.  Returns the patcher state after the in-place sort, the output
bytes (`[]` models the `nil` slice returned on error) and the optional
error. -/
def Patcher.PatchBytes (p : Patcher) (input : List Nat) :
    Patcher × List Nat × Option PatchError :=
  let sorted := sortPatches p.patches
  match checkPatches (input.length : Int) sorted with
  | some e => (⟨sorted⟩, [], some e)
  | none => (⟨sorted⟩, applyPatches input 0 sorted, none)

/-- Go `Patcher.PatchString`: converts to bytes, calls `PatchBytes` and
converts back; with strings modelled as byte lists both conversions are the
identity, and Go's `string(nil) = ""` is `[]`. -/
def Patcher.PatchString (p : Patcher) (input : List Nat) :
    Patcher × List Nat × Option PatchError :=
  p.PatchBytes input

/-- Spec-side notion: the consumed spans `[offset, offset+length)` of two
records strictly overlap (their intersection is nonempty). -/
def SpanOverlap (a b : patch) : Prop :=
  max a.offset b.offset < min (a.offset + a.length) (b.offset + b.length)

instance : DecidableRel SpanOverlap :=
  fun a b => inferInstanceAs (Decidable (_ < _))

/-- Spec-side notion: index `i` of the input is covered by the consumed
span of some record in `rs`. -/
def coveredB (rs : List patch) (i : Nat) : Bool :=
  rs.any fun r => decide (r.offset ≤ (i : Int) ∧ (i : Int) < r.offset + r.length)

/-- Spec-side notion: the bytes of `input` whose index is not covered by
any record's consumed span, in their original order. -/
def uncoveredBytes (rs : List patch) (input : List Nat) : List Nat :=
  ((List.range input.length).filter fun i => !coveredB rs i).map fun i => input.getD i 0

/-- Total number of replacement bytes over a record list. -/
def totalData (rs : List patch) : Nat :=
  (rs.map fun r => r.data.length).sum

/-- One recording call on a patcher, used to state properties about whole
recording histories. -/
inductive Op where
  | del (offset length : Int)
  | insB (offset : Int) (data : List Nat)
  | insS (offset : Int) (data : List Nat)
  | rewB (offset length : Int) (data : List Nat)
  | rewS (offset length : Int) (data : List Nat)

/-- Perform one recording call. -/
def applyOp (p : Patcher) : Op → Patcher
  | .del o l => p.Delete o l
  | .insB o d => p.InsertBytes o d
  | .insS o d => p.InsertString o d
  | .rewB o l d => p.RewriteBytes o l d
  | .rewS o l d => p.RewriteString o l d

/-- Perform a sequence of recording calls, left to right. -/
def runOps (p : Patcher) (ops : List Op) : Patcher :=
  ops.foldl applyOp p

/-- A recording call that the library treats as a no-op: a delete of zero
length, an insert of empty data, or a rewrite of zero length with empty
data. -/
def IsNoOp : Op → Prop
  | .del _ l => l = 0
  | .insB _ d => d = []
  | .insS _ d => d = []
  | .rewB _ l d => l = 0 ∧ d = []
  | .rewS _ l d => l = 0 ∧ d = []

/-! ### Basic helper lemmas -/

lemma sortPatches_perm (l : List patch) : List.Perm (sortPatches l) l :=
  List.perm_insertionSort patchLE l

lemma sortPatches_sorted (l : List patch) : List.Sorted patchLE (sortPatches l) :=
  List.sorted_insertionSort patchLE l

lemma sortPatches_idem (l : List patch) : sortPatches (sortPatches l) = sortPatches l :=
  (sortPatches_sorted l).insertionSort_eq

lemma PatchBytes_fst (p : Patcher) (input : List Nat) :
    (p.PatchBytes input).1 = ⟨sortPatches p.patches⟩ := by
  simp only [Patcher.PatchBytes]
  split <;> rfl

lemma PatchBytes_congr (p q : Patcher) (input : List Nat)
    (h : sortPatches p.patches = sortPatches q.patches) :
    p.PatchBytes input = q.PatchBytes input := by
  simp only [Patcher.PatchBytes, h]

lemma PatchBytes_resort (p : Patcher) (input input' : List Nat) :
    ((p.PatchBytes input).1).PatchBytes input' = p.PatchBytes input' := by
  rw [PatchBytes_fst]
  exact PatchBytes_congr _ _ _ (sortPatches_idem p.patches)

lemma Empty_iff (p : Patcher) : p.Empty = true ↔ p.patches = [] := by
  simp [Patcher.Empty, List.length_eq_zero]

lemma applyOp_Empty (p : Patcher) (op : Op) :
    (applyOp p op).Empty = true ↔ (p.Empty = true ∧ IsNoOp op) := by
  cases op <;>
    simp only [applyOp, Patcher.Delete, Patcher.InsertBytes, Patcher.InsertString,
      Patcher.RewriteBytes, Patcher.RewriteString, IsNoOp] <;>
    split <;>
    simp_all [Empty_iff] <;>
    tauto

lemma runOps_Empty : ∀ (ops : List Op) (p : Patcher),
    (runOps p ops).Empty = true ↔ (p.Empty = true ∧ ∀ op ∈ ops, IsNoOp op)
  | [], p => by simp [runOps]
  | op :: ops, p => by
    have ih := runOps_Empty ops (applyOp p op)
    simp only [runOps, List.foldl_cons] at ih ⊢
    rw [ih, applyOp_Empty]
    constructor
    · rintro ⟨⟨h1, h2⟩, h3⟩
      exact ⟨h1, by simpa using ⟨h2, h3⟩⟩
    · rintro ⟨h1, h⟩
      simp only [List.mem_cons, forall_eq_or_imp] at h
      exact ⟨⟨h1, h.1⟩, h.2⟩

/-- Strict version of the sort key, used to reason about lists of records
with pairwise distinct offsets. -/
def patchLT (a b : patch) : Prop :=
  a.offset < b.offset

instance : IsAntisymm patch patchLT :=
  ⟨fun _ _ h1 h2 => absurd (lt_trans h1 h2) (lt_irrefl _)⟩

lemma PatchBytes_err (p : Patcher) (input : List Nat) :
    (p.PatchBytes input).2.2 = checkPatches (input.length : Int) (sortPatches p.patches) := by
  simp only [Patcher.PatchBytes]
  split <;> simp_all

lemma sortPatches_of_const_offset (k : Int) (l : List patch)
    (h : ∀ r ∈ l, r.offset = k) : sortPatches l = l := by
  apply List.Sorted.insertionSort_eq
  apply List.pairwise_of_forall_mem_list
  intro a ha b hb
  simp [patchLE, h a ha, h b hb]

lemma checkPatches_const_offset (n k : Int) (h0 : 0 ≤ k) (hn : k ≤ n) :
    ∀ l : List patch, (∀ r ∈ l, r.offset = k ∧ r.length = 0) → checkPatches n l = none
  | [], _ => rfl
  | [p], h => by
    obtain ⟨hpo, hpl⟩ := h p (by simp)
    simp only [checkPatches, hpo, hpl]
    rw [if_neg (by omega), if_neg (by omega), if_neg (by omega)]
  | p :: q :: t, h => by
    obtain ⟨hpo, hpl⟩ := h p (by simp)
    obtain ⟨hqo, hql⟩ := h q (by simp)
    have hrest := checkPatches_const_offset n k h0 hn (q :: t) fun r hr => h r (by simp [hr])
    simp only [checkPatches]
    rw [if_neg (by omega), if_neg (by omega), if_neg (by omega), if_neg (by omega)]
    exact hrest

lemma applyPatches_const_offset (input : List Nat) (k : Int) :
    ∀ l : List patch, (∀ r ∈ l, r.offset = k ∧ r.length = 0) →
      applyPatches input k l = (l.map patch.data).flatten ++ input.drop k.toNat
  | [], _ => by simp [applyPatches]
  | p :: rest, h => by
    obtain ⟨hpo, hpl⟩ := h p (by simp)
    have hrest := applyPatches_const_offset input k rest fun r hr => h r (by simp [hr])
    simp only [applyPatches, hpo, hpl, Int.add_zero, hrest, goSlice, List.map_cons,
      List.flatten_cons, List.append_assoc]
    rw [List.drop_eq_nil_of_le (by simpa using Nat.le_refl _)]
    simp

lemma sortPatches_pair (a b : patch) :
    sortPatches [a, b] = if a.offset ≤ b.offset then [a, b] else [b, a] := by
  by_cases h : a.offset ≤ b.offset <;>
    simp [sortPatches, List.insertionSort, List.orderedInsert, patchLE, h]

lemma checkPatches_pair_none (n : Int) (a b : patch)
    (h1 : 0 ≤ a.offset) (h2 : 0 ≤ a.length) (h3 : a.offset + a.length ≤ n)
    (h4 : 0 ≤ b.offset) (h5 : 0 ≤ b.length) (h6 : b.offset + b.length ≤ n)
    (h7 : a.offset + a.length ≤ b.offset) : checkPatches n [a, b] = none := by
  simp only [checkPatches]
  rw [if_neg (by omega), if_neg (by omega), if_neg (by omega), if_neg (by omega),
    if_neg (by omega), if_neg (by omega), if_neg (by omega)]

/-- The condition the validation loop enforces between a record and its
successor in the sorted order: the consumed span ends at or before the next
record's offset. -/
def chainCond (x y : patch) : Prop :=
  x.offset + x.length ≤ y.offset

instance : DecidableRel chainCond :=
  fun a b => inferInstanceAs (Decidable (_ ≤ _))

lemma checkPatches_cons_cons (n : Int) (p q : patch) (t : List patch) :
    checkPatches n (p :: q :: t) =
      if p.offset < 0 then some (.negativeOffset p)
      else if p.length < 0 then some (.negativeLength p)
      else if n < p.offset + p.length then some (.outOfRange p)
      else if q.offset < p.offset + p.length then some (.conflict p q)
      else checkPatches n (q :: t) := rfl

/-- The validation loop succeeds exactly when every record is in bounds for
the input and consecutive records in the checked order do not encroach on
each other. -/
lemma checkPatches_eq_none_iff (n : Int) :
    ∀ l : List patch, checkPatches n l = none ↔
      ((∀ r ∈ l, 0 ≤ r.offset ∧ 0 ≤ r.length ∧ r.offset + r.length ≤ n) ∧
        List.Chain' chainCond l)
  | [] => by simp [checkPatches]
  | [p] => by
    simp only [checkPatches, List.mem_singleton, List.chain'_singleton, and_true, forall_eq]
    split_ifs with h1 h2 h3
    · exact iff_of_false (by simp) (by omega)
    · exact iff_of_false (by simp) (by omega)
    · exact iff_of_false (by simp) (by omega)
    · exact iff_of_true rfl (by omega)
  | p :: q :: t => by
    have ih := checkPatches_eq_none_iff n (q :: t)
    rw [checkPatches_cons_cons]
    split_ifs with h1 h2 h3 h4
    · exact iff_of_false (by simp)
        (fun ⟨hb, _⟩ => by have := hb p (by simp); omega)
    · exact iff_of_false (by simp)
        (fun ⟨hb, _⟩ => by have := hb p (by simp); omega)
    · exact iff_of_false (by simp)
        (fun ⟨hb, _⟩ => by have := hb p (by simp); omega)
    · exact iff_of_false (by simp)
        (fun ⟨_, hc⟩ => by rw [List.chain'_cons] at hc; have := hc.1; simp [chainCond] at this; omega)
    · rw [ih]
      constructor
      · rintro ⟨hb, hc⟩
        refine ⟨fun r hr => ?_, ?_⟩
        · rcases List.mem_cons.mp hr with rfl | hr
          · omega
          · exact hb r hr
        · rw [List.chain'_cons]
          exact ⟨by simp [chainCond]; omega, hc⟩
      · rintro ⟨hb, hc⟩
        rw [List.chain'_cons] at hc
        exact ⟨fun r hr => hb r (by simp [hr]), hc.2⟩

lemma chain_off_le (p : patch) : ∀ rest : List patch,
    List.Chain' chainCond (p :: rest) → (∀ r ∈ rest, 0 ≤ r.length) →
    ∀ r ∈ rest, p.offset + p.length ≤ r.offset
  | [], _, _ => by simp
  | q :: t, hchain, hlen => by
    rw [List.chain'_cons] at hchain
    intro r hr
    rcases List.mem_cons.mp hr with rfl | hrt
    · exact hchain.1
    · have hq := chain_off_le q t hchain.2 (fun s hs => hlen s (by simp [hs])) r hrt
      have hql := hlen q (by simp)
      have := hchain.1
      simp only [chainCond] at *
      omega

lemma range_filter_le : ∀ (n a : Nat),
    (List.range n).filter (fun i => decide (a ≤ i)) = List.range' a (n - a)
  | 0, a => by simp
  | n + 1, a => by
    rw [List.range_succ, List.filter_append, range_filter_le n a]
    by_cases h : a ≤ n
    · rw [show n + 1 - a = (n - a) + 1 from by omega, List.range'_1_concat,
        show a + (n - a) = n from by omega]
      simp [h]
    · rw [show n + 1 - a = 0 from by omega, show n - a = 0 from by omega]
      simp [h]

lemma range'_map_getD (input : List Nat) : ∀ (k a : Nat), a + k ≤ input.length →
    (List.range' a k).map (fun i => input.getD i 0) = (input.drop a).take k
  | 0, a, _ => by simp
  | k + 1, a, h => by
    rw [List.range'_succ, List.map_cons, range'_map_getD input k (a + 1) (by omega),
      List.drop_eq_getElem_cons (show a < input.length from by omega), List.take_succ_cons]
    simp [List.getD_eq_getElem?_getD,
      List.getElem?_eq_getElem (show a < input.length from by omega)]

lemma coveredB_cons (p : patch) (rest : List patch) (i : Nat) :
    coveredB (p :: rest) i =
      (decide (p.offset ≤ (i : Int) ∧ (i : Int) < p.offset + p.length) || coveredB rest i) := by
  simp [coveredB]

lemma coveredB_eq_false_iff (rs : List patch) (i : Nat) :
    coveredB rs i = false ↔
      ∀ r ∈ rs, ¬(r.offset ≤ (i : Int) ∧ (i : Int) < r.offset + r.length) := by
  simp [coveredB]

lemma coveredB_perm {l₁ l₂ : List patch} (h : List.Perm l₁ l₂) (i : Nat) :
    coveredB l₁ i = coveredB l₂ i := by
  rw [Bool.eq_iff_iff]
  simp only [coveredB, List.any_eq_true]
  exact ⟨fun ⟨r, hr, hc⟩ => ⟨r, h.subset hr, hc⟩, fun ⟨r, hr, hc⟩ => ⟨r, h.symm.subset hr, hc⟩⟩

/-- Index form of the uncovered-byte computation, generalized over the
cursor `c`: the indices of the input at or beyond `c` that no record in
`rs` covers. -/
def uncovIdxFrom (c : Int) (rs : List patch) (n : Nat) : List Nat :=
  (List.range n).filter fun i => decide (c ≤ (i : Int)) && !coveredB rs i

lemma uncovIdxFrom_nil (c : Int) (h : 0 ≤ c) (n : Nat) :
    uncovIdxFrom c [] n = List.range' c.toNat (n - c.toNat) := by
  rw [uncovIdxFrom, ← range_filter_le n c.toNat]
  apply List.filter_congr
  intro i _
  have hcov : coveredB [] i = false := rfl
  rw [hcov]
  simp only [Bool.not_false, Bool.and_true]
  exact decide_eq_decide.mpr (by omega)

lemma range'_zero_split (a b : Nat) (h : a ≤ b) :
    List.range' 0 b = List.range' 0 a ++ List.range' a (b - a) := by
  have hh := List.range'_append_1 0 a (b - a)
  rw [Nat.zero_add, show b - a + a = b from by omega] at hh
  exact hh.symm

lemma range_split (m k : Nat) (h : m ≤ k) :
    List.range k = List.range' 0 m ++ List.range' m (k - m) := by
  rw [List.range_eq_range', range'_zero_split m k h]

lemma uncovIdxFrom_cons (c : Int) (p : patch) (rest : List patch) (n : Nat)
    (hc0 : 0 ≤ c) (hcp : c ≤ p.offset) (hl : 0 ≤ p.length)
    (hpn : p.offset + p.length ≤ (n : Int))
    (hrest : ∀ r ∈ rest, p.offset + p.length ≤ r.offset) :
    uncovIdxFrom c (p :: rest) n =
      List.range' c.toNat (p.offset.toNat - c.toNat) ++
        uncovIdxFrom (p.offset + p.length) rest n := by
  have hoe : p.offset.toNat ≤ (p.offset + p.length).toNat := by omega
  have hen : (p.offset + p.length).toNat ≤ n := by omega
  have hsplit : List.range n =
      (List.range' 0 p.offset.toNat ++
        List.range' p.offset.toNat ((p.offset + p.length).toNat - p.offset.toNat)) ++
      List.range' (p.offset + p.length).toNat (n - (p.offset + p.length).toNat) := by
    rw [range_split (p.offset + p.length).toNat n hen,
      range'_zero_split p.offset.toNat (p.offset + p.length).toNat hoe]
  have hF1 : (List.range' 0 p.offset.toNat).filter
      (fun i : Nat => decide (c ≤ (i : Int)) && !coveredB (p :: rest) i) =
      List.range' c.toNat (p.offset.toNat - c.toNat) := by
    have hcongr : ∀ i ∈ List.range' 0 p.offset.toNat,
        (decide (c ≤ (i : Int)) && !coveredB (p :: rest) i) = decide (c.toNat ≤ i) := by
      intro i hi
      rw [List.mem_range'_1] at hi
      have hcov : coveredB (p :: rest) i = false := by
        rw [coveredB_eq_false_iff]
        intro r hr
        rcases List.mem_cons.mp hr with rfl | hr
        · rintro ⟨ha, hb⟩; omega
        · have := hrest r hr; rintro ⟨ha, hb⟩; omega
      rw [hcov]
      simp only [Bool.not_false, Bool.and_true]
      exact decide_eq_decide.mpr (by omega)
    rw [List.filter_congr hcongr, ← List.range_eq_range', range_filter_le]
  have hF2 : (List.range' p.offset.toNat
      ((p.offset + p.length).toNat - p.offset.toNat)).filter
      (fun i : Nat => decide (c ≤ (i : Int)) && !coveredB (p :: rest) i) = [] := by
    rw [List.filter_eq_nil_iff]
    intro i hi
    rw [List.mem_range'_1] at hi
    have hcov : coveredB (p :: rest) i = true := by
      rw [coveredB_cons, Bool.or_eq_true]
      left
      rw [decide_eq_true_eq]
      constructor <;> omega
    simp [hcov]
  have hF3 : (List.range' (p.offset + p.length).toNat
      (n - (p.offset + p.length).toNat)).filter
      (fun i : Nat => decide (c ≤ (i : Int)) && !coveredB (p :: rest) i) =
      uncovIdxFrom (p.offset + p.length) rest n := by
    rw [uncovIdxFrom, range_split (p.offset + p.length).toNat n hen, List.filter_append]
    have hzero : (List.range' 0 (p.offset + p.length).toNat).filter
        (fun i : Nat => decide (p.offset + p.length ≤ (i : Int)) && !coveredB rest i) = [] := by
      rw [List.filter_eq_nil_iff]
      intro i hi
      rw [List.mem_range'_1] at hi
      have : decide (p.offset + p.length ≤ (i : Int)) = false := by
        rw [decide_eq_false_iff_not]; omega
      simp [this]
    rw [hzero, List.nil_append]
    apply List.filter_congr
    intro i hi
    rw [List.mem_range'_1] at hi
    have hcovp : decide (p.offset ≤ (i : Int) ∧ (i : Int) < p.offset + p.length) = false := by
      rw [decide_eq_false_iff_not]; omega
    have hctrue : decide (c ≤ (i : Int)) = true := by rw [decide_eq_true_eq]; omega
    have hetrue : decide (p.offset + p.length ≤ (i : Int)) = true := by
      rw [decide_eq_true_eq]; omega
    rw [coveredB_cons, hcovp, hctrue, hetrue]
    simp
  rw [uncovIdxFrom, hsplit, List.filter_append, List.filter_append, hF1, hF2, hF3,
    List.append_nil]

lemma applyPatches_nil (input : List Nat) (c : Int) :
    applyPatches input c [] = input.drop c.toNat := rfl

lemma applyPatches_cons (input : List Nat) (c : Int) (p : patch) (rest : List patch) :
    applyPatches input c (p :: rest) =
      goSlice input c p.offset ++ p.data ++ applyPatches input (p.offset + p.length) rest := rfl

/-- Byte form of the uncovered computation, generalized over the cursor. -/
def uncovBytesFrom (c : Int) (rs : List patch) (input : List Nat) : List Nat :=
  (uncovIdxFrom c rs input.length).map fun i => input.getD i 0

lemma uncovBytesFrom_nil (c : Int) (input : List Nat) (h0 : 0 ≤ c)
    (hn : c ≤ (input.length : Int)) :
    uncovBytesFrom c [] input = input.drop c.toNat := by
  rw [uncovBytesFrom, uncovIdxFrom_nil c h0, range'_map_getD input _ _ (by omega)]
  exact List.take_of_length_le (by simp)

lemma uncovBytesFrom_cons (c : Int) (p : patch) (rest : List patch) (input : List Nat)
    (hc0 : 0 ≤ c) (hcp : c ≤ p.offset) (hl : 0 ≤ p.length)
    (hpn : p.offset + p.length ≤ (input.length : Int))
    (hrest : ∀ r ∈ rest, p.offset + p.length ≤ r.offset) :
    uncovBytesFrom c (p :: rest) input =
      goSlice input c p.offset ++ uncovBytesFrom (p.offset + p.length) rest input := by
  rw [uncovBytesFrom, uncovIdxFrom_cons c p rest input.length hc0 hcp hl hpn hrest,
    List.map_append, range'_map_getD input _ _ (by omega), List.take_drop,
    show c.toNat + (p.offset.toNat - c.toNat) = p.offset.toNat from by omega]
  rfl

/-- Decomposition of the assembly loop on a validated tail: the uncovered
bytes at or beyond the cursor form a subsequence of the assembled output,
and the output length is the uncovered count plus the replacement bytes. -/
lemma applyPatches_decomp (input : List Nat) : ∀ (l : List patch) (c : Int),
    0 ≤ c → c ≤ (input.length : Int) →
    (∀ r ∈ l, c ≤ r.offset ∧ 0 ≤ r.length ∧ r.offset + r.length ≤ (input.length : Int)) →
    List.Chain' chainCond l →
    (uncovBytesFrom c l input).Sublist (applyPatches input c l) ∧
    (applyPatches input c l).length = (uncovBytesFrom c l input).length + totalData l
  | [], c, hc0, hcn, _, _ => by
    rw [uncovBytesFrom_nil c input hc0 hcn, applyPatches_nil]
    exact ⟨List.Sublist.refl _, by simp [totalData]⟩
  | p :: rest, c, hc0, hcn, hb, hchain => by
    obtain ⟨hcp, hpl, hpn⟩ := hb p (List.mem_cons_self p rest)
    have hrestoff : ∀ r ∈ rest, p.offset + p.length ≤ r.offset :=
      chain_off_le p rest hchain fun r hr => (hb r (List.mem_cons_of_mem p hr)).2.1
    have hb' : ∀ r ∈ rest, p.offset + p.length ≤ r.offset ∧ 0 ≤ r.length ∧
        r.offset + r.length ≤ (input.length : Int) := fun r hr =>
      ⟨hrestoff r hr, (hb r (List.mem_cons_of_mem p hr)).2.1,
        (hb r (List.mem_cons_of_mem p hr)).2.2⟩
    have ih := applyPatches_decomp input rest (p.offset + p.length) (by omega) (by omega)
      hb' hchain.tail
    rw [uncovBytesFrom_cons c p rest input hc0 hcp hpl hpn hrestoff, applyPatches_cons]
    constructor
    · rw [List.append_assoc]
      exact (List.Sublist.refl _).append ((ih.1).trans (List.sublist_append_right p.data _))
    · have htot : totalData (p :: rest) = p.data.length + totalData rest := by
        simp [totalData]
      simp only [List.length_append]
      omega

lemma uncoveredBytes_eq_from_zero (rs : List patch) (input : List Nat) :
    uncoveredBytes rs input = uncovBytesFrom 0 rs input := by
  unfold uncoveredBytes uncovBytesFrom uncovIdxFrom
  refine congrArg _ (List.filter_congr fun i _ => ?_)
  simp

lemma uncoveredBytes_perm {l₁ l₂ : List patch} (h : List.Perm l₁ l₂) (input : List Nat) :
    uncoveredBytes l₁ input = uncoveredBytes l₂ input := by
  unfold uncoveredBytes
  refine congrArg _ (List.filter_congr fun i _ => ?_)
  rw [coveredB_perm h]

lemma totalData_perm {l₁ l₂ : List patch} (h : List.Perm l₁ l₂) :
    totalData l₁ = totalData l₂ := by
  unfold totalData
  exact (h.map _).sum_eq

/-! ### Claim theorems -/

/-- C1, corrected: for edits whose spans are in bounds and which, once
stably sorted by offset, leave each record's span ending at or before the
next record's offset, `PatchBytes` succeeds, its output is exactly the
left-to-right walk over the sorted records (untouched segment, then
replacement, with the final tail appended), the input bytes not covered by
any consumed span appear in the output as a subsequence in original order,
and the output length equals the uncovered-byte count plus the total
replacement length (so each uncovered byte appears exactly once). -/
theorem C1_valid_edits_apply (p : Patcher) (input : List Nat)
    (hb : ∀ r ∈ p.patches, 0 ≤ r.offset ∧ 0 ≤ r.length ∧
      r.offset + r.length ≤ (input.length : Int))
    (hchain : List.Chain' chainCond (sortPatches p.patches)) :
    (p.PatchBytes input).2.2 = none ∧
    (p.PatchBytes input).2.1 = applyPatches input 0 (sortPatches p.patches) ∧
    (uncoveredBytes p.patches input).Sublist (p.PatchBytes input).2.1 ∧
    ((p.PatchBytes input).2.1).length =
      (uncoveredBytes p.patches input).length + totalData p.patches := by
  have hbs : ∀ r ∈ sortPatches p.patches, 0 ≤ r.offset ∧ 0 ≤ r.length ∧
      r.offset + r.length ≤ (input.length : Int) :=
    fun r hr => hb r ((sortPatches_perm p.patches).subset hr)
  have hnone : checkPatches (input.length : Int) (sortPatches p.patches) = none :=
    (checkPatches_eq_none_iff _ _).mpr ⟨hbs, hchain⟩
  have hout : p.PatchBytes input =
      (⟨sortPatches p.patches⟩, applyPatches input 0 (sortPatches p.patches), none) := by
    simp only [Patcher.PatchBytes, hnone]
  have hdec := applyPatches_decomp input (sortPatches p.patches) 0 le_rfl (by omega)
    hbs hchain
  rw [uncoveredBytes_perm (sortPatches_perm p.patches).symm input, uncoveredBytes_eq_from_zero,
    totalData_perm (sortPatches_perm p.patches).symm, hout]
  exact ⟨rfl, rfl, hdec.1, hdec.2⟩

theorem C1_valid_edits_apply_witness :
    (∀ r ∈ (Patcher.mk [⟨3, 1, [120]⟩, ⟨1, 1, []⟩]).patches,
      0 ≤ r.offset ∧ 0 ≤ r.length ∧
        r.offset + r.length ≤ (([97, 98, 99, 100, 101] : List Nat).length : Int)) ∧
    List.Chain' chainCond (sortPatches (Patcher.mk [⟨3, 1, [120]⟩, ⟨1, 1, []⟩]).patches) ∧
    (((Patcher.mk [⟨3, 1, [120]⟩, ⟨1, 1, []⟩]).PatchBytes [97, 98, 99, 100, 101]).2.2 = none ∧
      ((Patcher.mk [⟨3, 1, [120]⟩, ⟨1, 1, []⟩]).PatchBytes [97, 98, 99, 100, 101]).2.1 =
        applyPatches [97, 98, 99, 100, 101] 0
          (sortPatches (Patcher.mk [⟨3, 1, [120]⟩, ⟨1, 1, []⟩]).patches) ∧
      (uncoveredBytes (Patcher.mk [⟨3, 1, [120]⟩, ⟨1, 1, []⟩]).patches
        [97, 98, 99, 100, 101]).Sublist
        (((Patcher.mk [⟨3, 1, [120]⟩, ⟨1, 1, []⟩]).PatchBytes [97, 98, 99, 100, 101]).2.1) ∧
      ((((Patcher.mk [⟨3, 1, [120]⟩, ⟨1, 1, []⟩]).PatchBytes [97, 98, 99, 100, 101]).2.1).length =
        (uncoveredBytes (Patcher.mk [⟨3, 1, [120]⟩, ⟨1, 1, []⟩]).patches
          [97, 98, 99, 100, 101]).length +
          totalData (Patcher.mk [⟨3, 1, [120]⟩, ⟨1, 1, []⟩]).patches)) := by
  have hchain : List.Chain' chainCond
      (sortPatches (Patcher.mk [⟨3, 1, [120]⟩, ⟨1, 1, []⟩]).patches) := by
    rw [show sortPatches (Patcher.mk [⟨3, 1, [120]⟩, ⟨1, 1, []⟩]).patches =
        [⟨1, 1, []⟩, ⟨3, 1, [120]⟩] from by decide]
    exact List.chain'_cons.mpr ⟨by decide, List.chain'_singleton _⟩
  exact ⟨by decide, hchain,
    C1_valid_edits_apply ⟨[⟨3, 1, [120]⟩, ⟨1, 1, []⟩]⟩ [97, 98, 99, 100, 101]
      (by decide) hchain⟩

/-- C1, counterexample to the claim as stated: both records of the patcher
(a delete of span `[1, 3)` and a pure insertion at offset 1) are in bounds
for the input "abc" and their consumed spans do not overlap (the
insertion's span is empty), yet `PatchBytes` fails with a conflict. -/
theorem C1_valid_edits_apply_counterexample :
    (∀ r ∈ (Patcher.mk [⟨1, 2, []⟩, ⟨1, 0, [120]⟩]).patches,
      0 ≤ r.offset ∧ 0 ≤ r.length ∧
        r.offset + r.length ≤ (([97, 98, 99] : List Nat).length : Int)) ∧
    (∀ r₁ ∈ (Patcher.mk [⟨1, 2, []⟩, ⟨1, 0, [120]⟩]).patches,
      ∀ r₂ ∈ (Patcher.mk [⟨1, 2, []⟩, ⟨1, 0, [120]⟩]).patches,
        r₁ ≠ r₂ → ¬SpanOverlap r₁ r₂) ∧
    ((Patcher.mk [⟨1, 2, []⟩, ⟨1, 0, [120]⟩]).PatchBytes [97, 98, 99]).2.2 ≠ none := by
  decide

/-- C2, corrected: `PatchBytes` returns an error iff some record has a
negative offset, a negative length, or a span beyond the input, or the
stably sorted records contain an adjacent pair in which the earlier span
ends beyond the next record's offset; in particular a zero-length record at
offset exactly `len(input)` (insertion at the end) is valid. -/
theorem C2_error_conditions (p : Patcher) (input : List Nat) :
    ((p.PatchBytes input).2.2 ≠ none ↔
      (∃ r ∈ p.patches, r.offset < 0 ∨ r.length < 0 ∨
        (input.length : Int) < r.offset + r.length) ∨
      ¬List.Chain' chainCond (sortPatches p.patches)) ∧
    ∀ d : List Nat,
      ((Patcher.mk [⟨(input.length : Int), 0, d⟩]).PatchBytes input).2.2 = none := by
  constructor
  · rw [PatchBytes_err, ne_eq, checkPatches_eq_none_iff]
    constructor
    · intro h
      by_cases hc : List.Chain' chainCond (sortPatches p.patches)
      · left
        by_contra hex
        push_neg at hex
        apply h
        refine ⟨fun r hr => ?_, hc⟩
        have := hex r ((sortPatches_perm p.patches).subset hr)
        omega
      · right; exact hc
    · rintro (⟨r, hr, hcond⟩ | hc) hnone
      · have := hnone.1 r ((sortPatches_perm p.patches).mem_iff.mpr hr)
        omega
      · exact hc hnone.2
  · intro d
    rw [PatchBytes_err]
    apply (checkPatches_eq_none_iff _ _).mpr
    refine ⟨?_, by simp [sortPatches, List.insertionSort, List.orderedInsert]⟩
    intro r hr
    simp only [sortPatches, List.insertionSort, List.orderedInsert,
      List.mem_singleton] at hr
    subst hr
    refine ⟨by simp, by simp, by simp⟩

/-- C2, counterexample to the claim as stated: the patcher holds a delete
of span `[1, 3)` recorded before a pure insertion at offset 1; no record
has a negative offset or length or an out-of-range span, and no two
records' consumed spans strictly overlap, yet `PatchBytes` returns an
error on the input "abc". -/
theorem C2_error_conditions_counterexample :
    ((Patcher.mk [⟨1, 2, []⟩, ⟨1, 0, [120]⟩]).PatchBytes [97, 98, 99]).2.2 ≠ none ∧
    (∀ r ∈ (Patcher.mk [⟨1, 2, []⟩, ⟨1, 0, [120]⟩]).patches, ¬r.offset < 0) ∧
    (∀ r ∈ (Patcher.mk [⟨1, 2, []⟩, ⟨1, 0, [120]⟩]).patches, ¬r.length < 0) ∧
    (∀ r ∈ (Patcher.mk [⟨1, 2, []⟩, ⟨1, 0, [120]⟩]).patches,
      ¬(([97, 98, 99] : List Nat).length : Int) < r.offset + r.length) ∧
    (∀ r₁ ∈ (Patcher.mk [⟨1, 2, []⟩, ⟨1, 0, [120]⟩]).patches,
      ∀ r₂ ∈ (Patcher.mk [⟨1, 2, []⟩, ⟨1, 0, [120]⟩]).patches,
        r₁ ≠ r₂ → ¬SpanOverlap r₁ r₂) := by
  decide

/-- C4: for a patcher holding a sequence of pure insertions recorded at a
common offset `k` within the input, `PatchBytes` succeeds and the
replacement bytes appear in the output between the first `k` input bytes
and the rest of the input, concatenated in recording order (the stable sort
keeps equal offsets in recording order). -/
theorem C4_same_offset_insert_order (k : Int) (l : List patch) (input : List Nat)
    (h : ∀ r ∈ l, r.offset = k ∧ r.length = 0)
    (h0 : 0 ≤ k) (hn : k ≤ (input.length : Int)) :
    (Patcher.mk l).PatchBytes input =
      (⟨l⟩, input.take k.toNat ++ (l.map patch.data).flatten ++ input.drop k.toNat, none) := by
  have hsort : sortPatches l = l := sortPatches_of_const_offset k l fun r hr => (h r hr).1
  have hchk : checkPatches (input.length : Int) l = none :=
    checkPatches_const_offset (input.length : Int) k h0 hn l h
  simp only [Patcher.PatchBytes, hsort, hchk]
  match l, h with
  | [], _ => simp [applyPatches]
  | p :: rest, h =>
    obtain ⟨hpo, hpl⟩ := h p (by simp)
    have hrest := applyPatches_const_offset input k rest fun r hr => h r (by simp [hr])
    simp [applyPatches, hpo, hpl, hrest, goSlice, List.flatten_cons, List.append_assoc]

theorem C4_same_offset_insert_order_witness :
    (∀ r ∈ [(⟨1, 0, [98]⟩ : patch), ⟨1, 0, [99]⟩, ⟨1, 0, [100]⟩], r.offset = 1 ∧ r.length = 0) ∧
      (0 : Int) ≤ 1 ∧ (1 : Int) ≤ (([97, 101] : List Nat).length : Int) ∧
      (Patcher.mk [⟨1, 0, [98]⟩, ⟨1, 0, [99]⟩, ⟨1, 0, [100]⟩]).PatchBytes [97, 101] =
        (⟨[⟨1, 0, [98]⟩, ⟨1, 0, [99]⟩, ⟨1, 0, [100]⟩]⟩, [97, 98, 99, 100, 101], none) :=
  ⟨by decide, by decide, by decide,
    (C4_same_offset_insert_order 1 [⟨1, 0, [98]⟩, ⟨1, 0, [99]⟩, ⟨1, 0, [100]⟩] [97, 101]
      (by decide) (by decide) (by decide)).trans (by decide)⟩

/-- C3, corrected: a pure insertion at offset `k` and a delete/rewrite
record whose consumed span touches `k` do not conflict when the span's end
equals `k` (either recording order), or when the span's start equals `k`
and the insertion was recorded first; and a patcher holding only pure
insertions at one offset never reports a conflict.  (When the span's start
equals `k`, the span has positive length and the delete/rewrite was
recorded first, the code does report a conflict — see the
counterexample.) -/
theorem C3_touching_insert (o l k : Int) (dR dI : List Nat) (input : List Nat)
    (ho : 0 ≤ o) (hl : 0 ≤ l) (hol : o + l ≤ (input.length : Int))
    (hk0 : 0 ≤ k) (hkn : k ≤ (input.length : Int)) :
    ((o + l = k ∨ o = k) →
      ((Patcher.mk [⟨k, 0, dI⟩, ⟨o, l, dR⟩]).PatchBytes input).2.2 = none) ∧
    (o + l = k →
      ((Patcher.mk [⟨o, l, dR⟩, ⟨k, 0, dI⟩]).PatchBytes input).2.2 = none) ∧
    (∀ ins : List patch, (∀ r ∈ ins, r.offset = k ∧ r.length = 0) →
      ((Patcher.mk ins).PatchBytes input).2.2 = none) := by
  refine ⟨?_, ?_, ?_⟩
  · rintro (htouch | htouch) <;>
    · rw [PatchBytes_err]
      simp only [sortPatches_pair]
      split_ifs with hle
      · exact checkPatches_pair_none _ _ _ (by simp; omega) (by simp) (by simp; omega)
          (by simpa using ho) (by simpa using hl) (by simpa using hol) (by simp; omega)
      · exact checkPatches_pair_none _ _ _ (by simpa using ho) (by simpa using hl)
          (by simpa using hol) (by simp; omega) (by simp) (by simp; omega) (by simp; omega)
  · intro htouch
    rw [PatchBytes_err]
    simp only [sortPatches_pair]
    split_ifs with hle
    · exact checkPatches_pair_none _ _ _ (by simpa using ho) (by simpa using hl)
        (by simpa using hol) (by simp; omega) (by simp) (by simp; omega) (by simp; omega)
    · exact checkPatches_pair_none _ _ _ (by simp; omega) (by simp) (by simp; omega)
        (by simpa using ho) (by simpa using hl) (by simpa using hol) (by simp; omega)
  · intro ins hins
    rw [PatchBytes_err, sortPatches_of_const_offset k ins fun r hr => (hins r hr).1]
    exact checkPatches_const_offset _ k hk0 hkn ins hins

theorem C3_touching_insert_witness :
    (0 : Int) ≤ 1 ∧ (0 : Int) ≤ 2 ∧ (1 + 2 : Int) ≤ (([97, 98, 99] : List Nat).length : Int) ∧
      (0 : Int) ≤ 3 ∧ (3 : Int) ≤ (([97, 98, 99] : List Nat).length : Int) ∧
      ((Patcher.mk [⟨3, 0, [120]⟩, ⟨1, 2, []⟩]).PatchBytes [97, 98, 99]).2.2 = none ∧
      ((Patcher.mk [⟨1, 2, []⟩, ⟨3, 0, [120]⟩]).PatchBytes [97, 98, 99]).2.2 = none :=
  ⟨by decide, by decide, by decide, by decide, by decide,
    (C3_touching_insert 1 2 3 [] [120] [97, 98, 99] (by decide) (by decide) (by decide)
      (by decide) (by decide)).1 (Or.inl (by decide)),
    (C3_touching_insert 1 2 3 [] [120] [97, 98, 99] (by decide) (by decide) (by decide)
      (by decide) (by decide)).2.1 (by decide)⟩

/-- C3, counterexample to the claim as stated: the patcher holds a delete
of span `[1, 3)` recorded first and a pure insertion at offset `k = 1`
(the span's start equals `k`, i.e. they touch); on the valid input
"abc" `PatchBytes` reports a conflict between exactly those two records,
so the "regardless of recording order" part of the claim is false. -/
theorem C3_touching_insert_counterexample :
    ((Patcher.mk [⟨1, 2, []⟩, ⟨1, 0, [120]⟩]).PatchBytes [97, 98, 99]).2.2 =
      some (.conflict ⟨1, 2, []⟩ ⟨1, 0, [120]⟩) := by decide

/-- C5, corrected: applying two patchers holding the same edits as a
multiset, recorded in different orders, yields identical results provided
the offsets are pairwise distinct.  (With equal offsets the recording
order is observable — see the counterexample.) -/
theorem C5_order_independent_distinct_offsets (p₁ p₂ : Patcher) (input : List Nat)
    (hperm : List.Perm p₁.patches p₂.patches)
    (hnodup : (p₁.patches.map patch.offset).Nodup) :
    p₁.PatchBytes input = p₂.PatchBytes input := by
  apply PatchBytes_congr
  have hnodup₂ : (p₂.patches.map patch.offset).Nodup :=
    ((hperm.map patch.offset).nodup_iff).mp hnodup
  have hlt : ∀ q : Patcher, (q.patches.map patch.offset).Nodup →
      List.Sorted patchLT (sortPatches q.patches) := by
    intro q hq
    have hle : List.Pairwise patchLE (sortPatches q.patches) := sortPatches_sorted q.patches
    have hne : List.Pairwise (fun a b : patch => a.offset ≠ b.offset) (sortPatches q.patches) := by
      have : ((sortPatches q.patches).map patch.offset).Nodup :=
        (((sortPatches_perm q.patches).map patch.offset).nodup_iff).mpr hq
      exact List.pairwise_map.mp this
    exact (hle.and hne).imp fun h => lt_of_le_of_ne h.1 h.2
  refine List.eq_of_perm_of_sorted ?_ (hlt p₁ hnodup) (hlt p₂ hnodup₂)
  exact ((sortPatches_perm p₁.patches).trans hperm).trans (sortPatches_perm p₂.patches).symm

theorem C5_order_independent_distinct_offsets_witness :
    List.Perm (Patcher.mk [⟨3, 1, []⟩, ⟨1, 1, [120]⟩]).patches
        (Patcher.mk [⟨1, 1, [120]⟩, ⟨3, 1, []⟩]).patches ∧
      ((Patcher.mk [⟨3, 1, []⟩, ⟨1, 1, [120]⟩]).patches.map patch.offset).Nodup ∧
      (Patcher.mk [⟨3, 1, []⟩, ⟨1, 1, [120]⟩]).PatchBytes [97, 98, 99, 100, 101] =
        (Patcher.mk [⟨1, 1, [120]⟩, ⟨3, 1, []⟩]).PatchBytes [97, 98, 99, 100, 101] :=
  ⟨by decide, by decide,
    C5_order_independent_distinct_offsets ⟨[⟨3, 1, []⟩, ⟨1, 1, [120]⟩]⟩
      ⟨[⟨1, 1, [120]⟩, ⟨3, 1, []⟩]⟩ [97, 98, 99, 100, 101] (by decide) (by decide)⟩

/-- C5, counterexample to the claim as stated: two patchers holding the
same multiset of edits (two pure insertions at offset 1, recorded in the
two possible orders) produce different outputs on the input "ae", so
recording order is not always irrelevant. -/
theorem C5_order_independent_counterexample :
    List.Perm (Patcher.mk [⟨1, 0, [98]⟩, ⟨1, 0, [99]⟩]).patches
        (Patcher.mk [⟨1, 0, [99]⟩, ⟨1, 0, [98]⟩]).patches ∧
      ((Patcher.mk [⟨1, 0, [98]⟩, ⟨1, 0, [99]⟩]).PatchBytes [97, 101]).2.1 ≠
        ((Patcher.mk [⟨1, 0, [99]⟩, ⟨1, 0, [98]⟩]).PatchBytes [97, 101]).2.1 := by
  constructor
  · decide
  · decide

/-- C6: applying a patcher with no recorded edits succeeds and returns the
input unchanged, both for `PatchBytes` and for `PatchString`. -/
theorem C6_no_edits_identity (p : Patcher) (input : List Nat) (h : p.patches = []) :
    p.PatchBytes input = (p, input, none) ∧ p.PatchString input = (p, input, none) := by
  obtain ⟨l⟩ := p
  obtain rfl : l = [] := h
  constructor <;>
    simp [Patcher.PatchBytes, Patcher.PatchString, sortPatches, checkPatches, applyPatches,
      List.insertionSort]

theorem C6_no_edits_identity_witness :
    (Patcher.mk []).patches = [] ∧
      ((Patcher.mk []).PatchBytes [97, 98] = (Patcher.mk [], [97, 98], none) ∧
        (Patcher.mk []).PatchString [97, 98] = (Patcher.mk [], [97, 98], none)) :=
  ⟨rfl, C6_no_edits_identity ⟨[]⟩ [97, 98] rfl⟩

/-- C7: calling `PatchBytes` a second time, on the patcher state left
behind by a first call with the same input, yields exactly the same result
(same state, same output, same error); the in-place stable sort performed
by the first call does not change the outcome of the second. -/
theorem C7_apply_twice (p : Patcher) (input : List Nat) :
    ((p.PatchBytes input).1).PatchBytes input = p.PatchBytes input :=
  PatchBytes_resort p input input

/-- C8: a `PatchBytes` call that returns an error leaves the recorded edits
intact as a multiset (the in-place sort only permutes them), preserves
`Empty`, and a subsequent apply on any input behaves as if the failed call
had never happened. -/
theorem C8_failed_apply_preserves_state (p : Patcher) (input : List Nat)
    (h : (p.PatchBytes input).2.2 ≠ none) :
    List.Perm (p.PatchBytes input).1.patches p.patches ∧
    (p.PatchBytes input).1.Empty = p.Empty ∧
    ∀ input' : List Nat, ((p.PatchBytes input).1).PatchBytes input' = p.PatchBytes input' := by
  clear h
  refine ⟨?_, ?_, fun input' => PatchBytes_resort p input input'⟩
  · rw [PatchBytes_fst]
    exact sortPatches_perm p.patches
  · rw [PatchBytes_fst]
    simp [Patcher.Empty, (sortPatches_perm p.patches).length_eq]

theorem C8_failed_apply_preserves_state_witness :
    ((Patcher.mk [⟨-1, 1, []⟩]).PatchBytes [97]).2.2 ≠ none ∧
      (List.Perm ((Patcher.mk [⟨-1, 1, []⟩]).PatchBytes [97]).1.patches
          (Patcher.mk [⟨-1, 1, []⟩]).patches ∧
        ((Patcher.mk [⟨-1, 1, []⟩]).PatchBytes [97]).1.Empty = (Patcher.mk [⟨-1, 1, []⟩]).Empty ∧
        ∀ input' : List Nat,
          (((Patcher.mk [⟨-1, 1, []⟩]).PatchBytes [97]).1).PatchBytes input' =
            (Patcher.mk [⟨-1, 1, []⟩]).PatchBytes input') ∧
      (((Patcher.mk [⟨-1, 1, []⟩]).PatchBytes [97]).1).PatchBytes [98, 99] =
        (Patcher.mk [⟨-1, 1, []⟩]).PatchBytes [98, 99] :=
  ⟨by decide,
    C8_failed_apply_preserves_state ⟨[⟨-1, 1, []⟩]⟩ [97] (by decide),
    (C8_failed_apply_preserves_state ⟨[⟨-1, 1, []⟩]⟩ [97] (by decide)).2.2 [98, 99]⟩

/-- C9: zero-length operations record nothing (`Delete` with length 0,
inserts of empty data, rewrites of zero length and empty data leave the
patcher unchanged), and consequently `Empty` is true iff no non-no-op edit
has been recorded since creation or the last `Reset`. -/
theorem C9_no_op_edits :
    (∀ (p : Patcher) (o : Int), p.Delete o 0 = p) ∧
    (∀ (p : Patcher) (o : Int), p.InsertBytes o [] = p) ∧
    (∀ (p : Patcher) (o : Int), p.InsertString o [] = p) ∧
    (∀ (p : Patcher) (o : Int), p.RewriteBytes o 0 [] = p) ∧
    (∀ (p : Patcher) (o : Int), p.RewriteString o 0 [] = p) ∧
    (∀ ops : List Op, (runOps ⟨[]⟩ ops).Empty = true ↔ ∀ op ∈ ops, IsNoOp op) ∧
    (∀ (p : Patcher) (ops : List Op),
      (runOps p.Reset ops).Empty = true ↔ ∀ op ∈ ops, IsNoOp op) := by
  refine ⟨?_, ?_, ?_, ?_, ?_, ?_, ?_⟩
  · intro p o; simp [Patcher.Delete]
  · intro p o; simp [Patcher.InsertBytes]
  · intro p o; simp [Patcher.InsertString, Patcher.InsertBytes]
  · intro p o; simp [Patcher.RewriteBytes]
  · intro p o; simp [Patcher.RewriteString, Patcher.RewriteBytes]
  · intro ops
    rw [runOps_Empty]
    simp [Empty_iff]
  · intro p ops
    rw [runOps_Empty]
    simp [Patcher.Reset, Empty_iff]

/-- C10: whenever validation fails, `PatchBytes` returns the empty byte
sequence (Go's `nil` slice) as its output, never a partially assembled
buffer, and `PatchString` correspondingly returns the empty string. -/
theorem C10_error_output_empty (p : Patcher) (input : List Nat)
    (h : (p.PatchBytes input).2.2 ≠ none) :
    (p.PatchBytes input).2.1 = [] ∧ (p.PatchString input).2.1 = [] := by
  rw [Patcher.PatchString]
  revert h
  simp only [Patcher.PatchBytes]
  cases checkPatches (input.length : Int) (sortPatches p.patches) <;> simp

theorem C10_error_output_empty_witness :
    ((Patcher.mk [⟨-1, 1, []⟩]).PatchBytes [97]).2.2 ≠ none ∧
      (((Patcher.mk [⟨-1, 1, []⟩]).PatchBytes [97]).2.1 = [] ∧
        ((Patcher.mk [⟨-1, 1, []⟩]).PatchString [97]).2.1 = []) :=
  ⟨by decide, C10_error_output_empty ⟨[⟨-1, 1, []⟩]⟩ [97] (by decide)⟩

end GoPatcher
